import Mathlib

/-!
# Verification of the PoolMind pool ledger, arbitrage detector, executor and
  strategy fallback

Shallow embedding of `src/poolmind/core/pool_state.py`,
`src/poolmind/core/arbitrage.py`, `src/poolmind/ai/agent.py`,
`src/poolmind/main.py` and `src/research.py`.  Python floats are modelled as
rationals (`ℚ`); dictionaries that are iterated in insertion order are
modelled as association lists.  Wall-clock timestamps, logging and network
calls are dropped: they do not affect the verified properties.
-/

namespace PoolMind

/-! ## Pool ledger (`src/poolmind/core/pool_state.py`) -/

/-- Status of a withdrawal request: `"pending" | "completed" | "delayed"`. -/
inductive WStatus where
  | pending
  | completed
  | delayed
deriving DecidableEq, Repr

/-- A withdrawal request dict `{"amount": .., "status": ..}` (timestamps
dropped). -/
structure Request where
  amount : ℚ
  status : WStatus
deriving DecidableEq, Repr

/-- The `Participant` dataclass from `pool_state.py` (`join_date` dropped). -/
structure Participant where
  id : String
  initial_investment : ℚ
  current_value : ℚ
  withdrawal_requests : List Request := []
deriving DecidableEq, Repr

/-- The `PoolState` object.  `participants` is a `Dict[str, Participant]`
iterated in insertion order, modelled as a list in that order; `assets` is a
`Dict[str, float]` mapping symbols to USD values. -/
structure PoolState where
  initial_pool_value : ℚ
  current_pool_value : ℚ
  participants : List Participant
  assets : List (String × ℚ)
  cash_reserve : ℚ
deriving DecidableEq, Repr

/-- Embeds `PoolState._initialize_participants`: `count` simulated participants,
participant `i` (0-based) investing `avg_investment * (0.8 + 0.4 * i/count)`
where `avg_investment = initial_pool_value / count`. -/
def initParticipants (v0 : ℚ) (count : ℕ) : List Participant :=
  (List.range count).map fun i =>
    let variation : ℚ := 4/5 + (2/5 * i / count)
    let investment := (v0 / count) * variation
    { id := "participant_" ++ toString (i + 1)
      initial_investment := investment
      current_value := investment }

/-- Embeds `PoolState.__init__(initial_pool_value, initial_participants)`. -/
def PoolState.init (v0 : ℚ) (count : ℕ) : PoolState :=
  { initial_pool_value := v0
    current_pool_value := v0
    participants := initParticipants v0 count
    assets := []
    cash_reserve := v0 }

/-- Membership test of `participant_id in self.participants` (dict key
lookup). -/
def hasParticipant (ps : List Participant) (pid : String) : Bool :=
  ps.any fun p => p.id = pid

/-- Dict lookup `self.participants[participant_id]` (first match). -/
def findParticipant (ps : List Participant) (pid : String) : Option Participant :=
  ps.find? fun p => p.id = pid

/-- In-place update of the participant with the given id. -/
def updateParticipant (ps : List Participant) (pid : String)
    (f : Participant → Participant) : List Participant :=
  ps.map fun p => if p.id = pid then f p else p

/-- Embeds `PoolState.add_participant`: reject duplicates, otherwise append the new
participant and grow both `current_pool_value` and `cash_reserve` by the
investment. -/
def PoolState.add_participant (s : PoolState) (pid : String) (investment : ℚ) :
    PoolState × Bool :=
  if hasParticipant s.participants pid then (s, false)
  else
    ({ s with
        participants := s.participants ++
          [{ id := pid, initial_investment := investment,
             current_value := investment }]
        current_pool_value := s.current_pool_value + investment
        cash_reserve := s.cash_reserve + investment }, true)

/-- Embeds `PoolState.request_withdrawal`: unknown id or `amount >
participant.current_value` is rejected; otherwise a request with status
`"pending"` is appended to that participant's `withdrawal_requests`. -/
def PoolState.request_withdrawal (s : PoolState) (pid : String) (amount : ℚ) :
    PoolState × Bool :=
  match findParticipant s.participants pid with
  | none => (s, false)
  | some p =>
    if amount > p.current_value then (s, false)
    else
      ({ s with
          participants := updateParticipant s.participants pid fun q =>
            { q with withdrawal_requests :=
                q.withdrawal_requests ++ [{ amount := amount, status := .pending }] } },
       true)

/-- One entry of the list returned by `process_withdrawals`. -/
structure PRes where
  participant_id : String
  amount : ℚ
  status : WStatus
deriving DecidableEq, Repr

/-- The inner loop of `PoolState.process_withdrawals` over one participant's
requests: a pending request is completed when `amount <= cash_reserve`
(decrementing `cash_reserve`, `current_pool_value` and the participant's
`current_value`), else marked delayed; non-pending requests are untouched.
Returns the updated request list, cash reserve, pool value, participant value
and the emitted result entries. -/
def processRequests (cash pool value : ℚ) :
    List Request → List Request × ℚ × ℚ × ℚ × List (ℚ × WStatus)
  | [] => ([], cash, pool, value, [])
  | r :: rs =>
    if r.status = .pending then
      if r.amount ≤ cash then
        let (rs', c', p', v', out) :=
          processRequests (cash - r.amount) (pool - r.amount) (value - r.amount) rs
        ({ r with status := .completed } :: rs', c', p', v',
          (r.amount, .completed) :: out)
      else
        let (rs', c', p', v', out) := processRequests cash pool value rs
        ({ r with status := .delayed } :: rs', c', p', v',
          (r.amount, .delayed) :: out)
    else
      let (rs', c', p', v', out) := processRequests cash pool value rs
      (r :: rs', c', p', v', out)

/-- The outer loop of `process_withdrawals` over participants in dict
insertion order, threading `cash_reserve` and `current_pool_value`. -/
def processParticipants (cash pool : ℚ) :
    List Participant → List Participant × ℚ × ℚ × List PRes
  | [] => ([], cash, pool, [])
  | p :: ps =>
    let (rs', c1, pool1, v1, out1) :=
      processRequests cash pool p.current_value p.withdrawal_requests
    let (ps', c2, pool2, out2) := processParticipants c1 pool1 ps
    ({ p with current_value := v1, withdrawal_requests := rs' } :: ps',
     c2, pool2,
     (out1.map fun e => ⟨p.id, e.1, e.2⟩) ++ out2)

/-- Embeds `PoolState.process_withdrawals`. -/
def PoolState.process_withdrawals (s : PoolState) : PoolState × List PRes :=
  let (ps', c', pool', out) :=
    processParticipants s.cash_reserve s.current_pool_value s.participants
  ({ s with participants := ps', cash_reserve := c', current_pool_value := pool' },
   out)

/-- Computes `sum(assets.values())`. -/
def assetSum (assets : List (String × ℚ)) : ℚ :=
  (assets.map Prod.snd).sum

/-- Embeds `PoolState.update_asset_allocation`: replace the inventory and recompute
`cash_reserve = current_pool_value - sum(assets.values())`. -/
def PoolState.update_asset_allocation (s : PoolState)
    (assets : List (String × ℚ)) : PoolState :=
  { s with
      assets := assets
      cash_reserve := s.current_pool_value - assetSum assets }

/-- Embeds `PoolState.update_pool_value` (the spec's `MarkPoolValue`): set
`current_pool_value := new_value` and, when the old value is positive, scale
every participant's `current_value` by `new_value / old_value`. -/
def PoolState.update_pool_value (s : PoolState) (new_value : ℚ) : PoolState :=
  let old_value := s.current_pool_value
  { s with
      current_pool_value := new_value
      participants :=
        if 0 < old_value then
          s.participants.map fun p =>
            { p with current_value := p.current_value * (new_value / old_value) }
        else s.participants }

/-! ## C4 — proportional mark -/

/-- C4: after `MarkPoolValue(v)` on a pool whose old value `v'` is positive,
every participant's value is scaled by exactly `v / v'` — so for a
participant with nonzero old value the new/old ratio equals `v / v'`
(exact in `ℚ`, hence within any relative tolerance) — and when the old
value is not positive every participant is left unchanged. -/
theorem mark_pool_value_proportional (s : PoolState) (v : ℚ) :
    (0 < s.current_pool_value →
      List.Forall₂
        (fun p p' : Participant =>
          p'.current_value = p.current_value * (v / s.current_pool_value) ∧
          (p.current_value ≠ 0 →
            p'.current_value / p.current_value = v / s.current_pool_value))
        s.participants (s.update_pool_value v).participants) ∧
    (¬ 0 < s.current_pool_value →
      (s.update_pool_value v).participants = s.participants) := by
  constructor
  · intro hpos
    simp only [PoolState.update_pool_value, if_pos hpos]
    induction s.participants with
    | nil => simp
    | cons p ps ih =>
      refine List.Forall₂.cons ⟨rfl, fun hne => ?_⟩ ih
      show p.current_value * (v / s.current_pool_value) / p.current_value = _
      exact mul_div_cancel_left₀ _ hne
  · intro hneg
    simp only [PoolState.update_pool_value, if_neg hneg]

/-- Witness for C4 at a concrete pool: value 100, one participant worth 50,
mark to 150 scales the participant to 75 (ratio 3/2). -/
theorem mark_pool_value_proportional_witness :
    List.Forall₂
      (fun p p' : Participant =>
        p'.current_value = p.current_value * ((150 : ℚ) / 100) ∧
        (p.current_value ≠ 0 → p'.current_value / p.current_value = (150 : ℚ) / 100))
      [{ id := "p1", initial_investment := 50, current_value := 50 }]
      (PoolState.update_pool_value
        { initial_pool_value := 100, current_pool_value := 100,
          participants := [{ id := "p1", initial_investment := 50, current_value := 50 }],
          assets := [], cash_reserve := 50 } 150).participants :=
  (mark_pool_value_proportional
    { initial_pool_value := 100, current_pool_value := 100,
      participants := [{ id := "p1", initial_investment := 50, current_value := 50 }],
      assets := [], cash_reserve := 50 } 150).1 (by norm_num)

/-! ## C1 — withdrawal processing -/

/-- Status projection of `processRequests`: a pending request is completed
exactly when its amount is at most the cash remaining when it is reached
(the initial reserve minus the amounts completed earlier in the same pass);
otherwise it is marked delayed; non-pending requests are untouched. -/
def settleList (cash : ℚ) : List Request → List Request
  | [] => []
  | r :: rs =>
    if r.status = .pending then
      if r.amount ≤ cash then
        { r with status := .completed } :: settleList (cash - r.amount) rs
      else
        { r with status := .delayed } :: settleList cash rs
    else r :: settleList cash rs

theorem processRequests_fst (cash pool value : ℚ) (rs : List Request) :
    (processRequests cash pool value rs).1 = settleList cash rs := by
  induction rs generalizing cash pool value with
  | nil => rfl
  | cons r rs ih =>
    by_cases hp : r.status = .pending
    · by_cases hc : r.amount ≤ cash
      · simp only [processRequests, settleList, hp, hc, if_true]
        exact congrArg _ (ih ..)
      · simp only [processRequests, settleList, hp, hc, if_true, if_false]
        exact congrArg _ (ih ..)
    · simp only [processRequests, settleList, hp, if_false]
      exact congrArg _ (ih ..)

theorem settleList_no_pending (cash : ℚ) (rs : List Request) :
    ∀ r' ∈ settleList cash rs, r'.status ≠ .pending := by
  induction rs generalizing cash with
  | nil => simp [settleList]
  | cons r rs ih =>
    intro r' hr'
    by_cases hp : r.status = .pending
    · by_cases hc : r.amount ≤ cash
      · simp only [settleList, hp, hc, if_true, List.mem_cons] at hr'
        rcases hr' with h | h
        · subst h; simp
        · exact ih _ _ h
      · simp only [settleList, hp, hc, if_true, if_false, List.mem_cons] at hr'
        rcases hr' with h | h
        · subst h; simp
        · exact ih _ _ h
    · simp only [settleList, hp, if_false, List.mem_cons] at hr'
      rcases hr' with h | h
      · subst h; exact hp
      · exact ih _ _ h

theorem settleList_delayed_fixed (cash : ℚ) (rs : List Request) :
    List.Forall₂ (fun r r' : Request => r.status = .delayed → r' = r)
      rs (settleList cash rs) := by
  induction rs generalizing cash with
  | nil => simp [settleList]
  | cons r rs ih =>
    by_cases hp : r.status = .pending
    · by_cases hc : r.amount ≤ cash
      · simp only [settleList, hp, hc, if_true]
        exact List.Forall₂.cons (fun hd => by rw [hp] at hd; cases hd) (ih _)
      · simp only [settleList, hp, hc, if_true, if_false]
        exact List.Forall₂.cons (fun hd => by rw [hp] at hd; cases hd) (ih _)
    · simp only [settleList, hp, if_false]
      exact List.Forall₂.cons (fun _ => rfl) (ih _)

theorem processParticipants_no_pending (cash pool : ℚ) (ps : List Participant) :
    ∀ p' ∈ (processParticipants cash pool ps).1,
      ∀ r' ∈ p'.withdrawal_requests, r'.status ≠ .pending := by
  induction ps generalizing cash pool with
  | nil => simp [processParticipants]
  | cons p ps ih =>
    intro p' hp' r' hr'
    simp only [processParticipants, List.mem_cons] at hp'
    rcases hp' with h | h
    · subst h
      simp only at hr'
      rw [processRequests_fst] at hr'
      exact settleList_no_pending _ _ _ hr'
    · exact ih _ _ _ h _ hr'

theorem processParticipants_delayed_fixed (cash pool : ℚ) (ps : List Participant) :
    List.Forall₂
      (fun p p' : Participant =>
        List.Forall₂ (fun r r' : Request => r.status = .delayed → r' = r)
          p.withdrawal_requests p'.withdrawal_requests)
      ps (processParticipants cash pool ps).1 := by
  induction ps generalizing cash pool with
  | nil => simp [processParticipants]
  | cons p ps ih =>
    refine List.Forall₂.cons ?_ (ih ..)
    show List.Forall₂ _ p.withdrawal_requests (processRequests cash pool
      p.current_value p.withdrawal_requests).1
    rw [processRequests_fst]
    exact settleList_delayed_fixed _ _

/-- C1 (amended): on each `process_withdrawals` call (i) the surviving
request lists are exactly `settleList` of the old ones — a pending request
is completed precisely when its amount is at most the cash remaining when
it is reached, else marked delayed; (ii) afterwards no request is pending;
(iii) a request already marked delayed is left untouched, so — since only
pending requests are ever processed — a delayed request is never
reconsidered by later calls. -/
theorem withdrawals_settled_delayed_never_requeued :
    (∀ (cash pool value : ℚ) (rs : List Request),
        (processRequests cash pool value rs).1 = settleList cash rs) ∧
    (∀ s : PoolState, ∀ p' ∈ s.process_withdrawals.1.participants,
        ∀ r' ∈ p'.withdrawal_requests, r'.status ≠ .pending) ∧
    (∀ s : PoolState,
        List.Forall₂
          (fun p p' : Participant =>
            List.Forall₂ (fun r r' : Request => r.status = .delayed → r' = r)
              p.withdrawal_requests p'.withdrawal_requests)
          s.participants s.process_withdrawals.1.participants) := by
  refine ⟨processRequests_fst, ?_, ?_⟩
  · intro s p' hp' r' hr'
    exact processParticipants_no_pending _ _ _ _ hp' _ hr'
  · intro s
    exact processParticipants_delayed_fixed _ _ _

/-- A concrete pool used to exercise C1: one participant with a single
pending withdrawal request of 100 and a cash reserve of 40. -/
def c1DemoPool : PoolState :=
  { initial_pool_value := 100, current_pool_value := 100,
    participants :=
      [{ id := "p1", initial_investment := 100, current_value := 100,
         withdrawal_requests := [{ amount := 100, status := .pending }] }],
    assets := [], cash_reserve := 40 }

/-- Witness for C1 (amended) at a concrete state: a pool with one pending
request of 100 against a cash reserve of 40 delays the request. -/
theorem withdrawals_settled_delayed_never_requeued_witness :
    (c1DemoPool.process_withdrawals.1.participants.all
      fun p' => p'.withdrawal_requests.all fun r' => decide (r'.status ≠ .pending)) := by
  rw [List.all_eq_true]
  intro p' hp'
  rw [List.all_eq_true]
  intro r' hr'
  have := withdrawals_settled_delayed_never_requeued.2.1 c1DemoPool p' hp' r' hr'
  simpa using this

/-- The start state of the C1 counterexample: a single pending request of 100
against an empty cash reserve. -/
def c1CounterPool : PoolState :=
  { initial_pool_value := 100, current_pool_value := 100,
    participants :=
      [{ id := "p1", initial_investment := 100, current_value := 100,
         withdrawal_requests := [{ amount := 100, status := .pending }] }],
    assets := [], cash_reserve := 0 }

/-- The C1 counterexample pool after the first `process_withdrawals` call
(request delayed) and a deposit of 1000 by a second participant. -/
def c1CounterPoolLater : PoolState :=
  ((c1CounterPool.process_withdrawals.1).add_participant "p2" 1000).1

/-- Counterexample to C1 as stated: a request of 100 against cash reserve 0
is marked delayed on the first call; after cash grows to 1000 via a deposit,
the next `process_withdrawals` call returns an empty result list and the
request is still delayed — it is never requeued, because only requests with
status `"pending"` are ever processed. -/
theorem delayed_request_never_requeued_counterexample :
    c1CounterPoolLater.cash_reserve = 1000 ∧
    c1CounterPoolLater.process_withdrawals.2 = [] ∧
    (c1CounterPoolLater.process_withdrawals.1.participants.map
      fun p => p.withdrawal_requests) =
      [[{ amount := 100, status := .delayed }], []] := by
  have hne : ("p1" : String) = "p2" ↔ False := iff_false_intro (by decide)
  have hds : WStatus.delayed = WStatus.pending ↔ False := iff_false_intro (by decide)
  norm_num [c1CounterPoolLater, c1CounterPool, PoolState.process_withdrawals,
    PoolState.add_participant, hasParticipant, processParticipants,
    processRequests, hne, hds]

/-! ## Ledger operations as a step relation (C2, C9) -/

/-- The ledger operations of the spec: `AddParticipant`, `RequestWithdrawal`,
`ProcessWithdrawals`, `UpdateAssetAllocation`, `MarkPoolValue`. -/
inductive Op where
  | addParticipant (pid : String) (investment : ℚ)
  | requestWithdrawal (pid : String) (amount : ℚ)
  | processWithdrawals
  | updateAssetAllocation (assets : List (String × ℚ))
  | markPoolValue (v : ℚ)
deriving DecidableEq, Repr

/-- State effect of one ledger operation (returned values dropped). -/
def applyOp (s : PoolState) : Op → PoolState
  | .addParticipant pid inv => (s.add_participant pid inv).1
  | .requestWithdrawal pid amt => (s.request_withdrawal pid amt).1
  | .processWithdrawals => s.process_withdrawals.1
  | .updateAssetAllocation a => s.update_asset_allocation a
  | .markPoolValue v => s.update_pool_value v

/-- Run a sequence of ledger operations. -/
def runOps (s : PoolState) : List Op → PoolState
  | [] => s
  | op :: ops => runOps (applyOp s op) ops

/-- The spec's stated argument preconditions: positive investments and
withdrawal amounts, and for `UpdateAssetAllocation` the caller must ensure
non-negative cash (`Σ marked_value(assets) ≤ pool_value`). -/
def Pre (s : PoolState) : Op → Prop
  | .addParticipant _ inv => 0 < inv
  | .requestWithdrawal _ amt => 0 < amt
  | .processWithdrawals => True
  | .updateAssetAllocation a => assetSum a ≤ s.current_pool_value
  | .markPoolValue _ => True

/-- Pool states reachable from a freshly constructed pool (non-negative
starting value) by ledger operations satisfying the spec's preconditions. -/
inductive Reachable : PoolState → Prop where
  | init (v0 : ℚ) (n : ℕ) (h : 0 ≤ v0) : Reachable (PoolState.init v0 n)
  | step {s : PoolState} (op : Op) (hs : Reachable s) (hpre : Pre s op) :
      Reachable (applyOp s op)

theorem processRequests_cash_nonneg (cash pool value : ℚ) (rs : List Request)
    (h : 0 ≤ cash) : 0 ≤ (processRequests cash pool value rs).2.1 := by
  induction rs generalizing cash pool value with
  | nil => exact h
  | cons r rs ih =>
    by_cases hp : r.status = .pending
    · by_cases hc : r.amount ≤ cash
      · simp only [processRequests, hp, hc, if_true]
        exact ih _ _ _ (by linarith)
      · simp only [processRequests, hp, hc, if_true, if_false]
        exact ih _ _ _ h
    · simp only [processRequests, hp, if_false]
      exact ih _ _ _ h

theorem processParticipants_cash_nonneg (cash pool : ℚ) (ps : List Participant)
    (h : 0 ≤ cash) : 0 ≤ (processParticipants cash pool ps).2.1 := by
  induction ps generalizing cash pool with
  | nil => exact h
  | cons p ps ih =>
    simp only [processParticipants]
    exact ih _ _ (processRequests_cash_nonneg _ _ _ _ h)

/-- C9: `cash_reserve ≥ 0` holds in every reachable pool state.
`add_participant` only grows the reserve, `request_withdrawal` does not touch
it, `process_withdrawals` only completes a request when the reserve covers
it, `update_asset_allocation` recomputes it as `pool_value − Σ assets`
(non-negative by the caller's stated obligation), and `update_pool_value`
leaves it unchanged. -/
theorem cash_reserve_nonneg (s : PoolState) (h : Reachable s) :
    0 ≤ s.cash_reserve := by
  induction h with
  | init v0 n h0 => exact h0
  | step op hs hpre ih =>
    rename_i s
    cases op with
    | addParticipant pid inv =>
      simp only [applyOp, PoolState.add_participant]
      split
      · exact ih
      · simp only
        have : (0 : ℚ) < inv := hpre
        linarith
    | requestWithdrawal pid amt =>
      simp only [applyOp, PoolState.request_withdrawal]
      rcases hfind : findParticipant s.participants pid with _ | p
      · simpa [hfind] using ih
      · simp only [hfind]
        split
        · exact ih
        · exact ih
    | processWithdrawals =>
      simp only [applyOp, PoolState.process_withdrawals]
      exact processParticipants_cash_nonneg _ _ _ ih
    | updateAssetAllocation a =>
      simp only [applyOp, PoolState.update_asset_allocation]
      have : assetSum a ≤ s.current_pool_value := hpre
      linarith
    | markPoolValue v =>
      simpa [applyOp, PoolState.update_pool_value] using ih

/-- Witness for C9: the reserve of a freshly constructed pool of value
100000 with 10 simulated participants is non-negative. -/
theorem cash_reserve_nonneg_witness :
    0 ≤ (PoolState.init 100000 10).cash_reserve :=
  cash_reserve_nonneg _ (Reachable.init 100000 10 (by norm_num))

/-! ## C2 — pool conservation -/

/-- Total amount of a request list's completed withdrawals. -/
def completedAmount (rs : List Request) : ℚ :=
  ((rs.filter fun r => r.status = .completed).map Request.amount).sum

/-- Total completed withdrawal amount over all participants. -/
def completedTotal (ps : List Participant) : ℚ :=
  (ps.map fun p => completedAmount p.withdrawal_requests).sum

/-- Sum of participants' initial investments (each successful
`add_participant` contributes exactly its deposit here). -/
def investedTotal (ps : List Participant) : ℚ :=
  (ps.map Participant.initial_investment).sum

theorem completedAmount_cons (r : Request) (rs : List Request) :
    completedAmount (r :: rs) =
      (if r.status = .completed then r.amount else 0) + completedAmount rs := by
  by_cases h : r.status = .completed <;>
    simp [completedAmount, List.filter_cons, h]

theorem processRequests_delta (cash pool value : ℚ) (rs : List Request) :
    (processRequests cash pool value rs).2.1 =
      cash - (completedAmount (processRequests cash pool value rs).1 -
        completedAmount rs) ∧
    (processRequests cash pool value rs).2.2.1 =
      pool - (completedAmount (processRequests cash pool value rs).1 -
        completedAmount rs) ∧
    (processRequests cash pool value rs).2.2.2.1 =
      value - (completedAmount (processRequests cash pool value rs).1 -
        completedAmount rs) := by
  induction rs generalizing cash pool value with
  | nil => simp [processRequests]
  | cons r rs ih =>
    by_cases hp : r.status = .pending
    · by_cases hc : r.amount ≤ cash
      · obtain ⟨ih1, ih2, ih3⟩ :=
          ih (cash - r.amount) (pool - r.amount) (value - r.amount)
        simp only [processRequests, hp, hc, if_true, completedAmount_cons]
        have hnc : r.status ≠ .completed := by rw [hp]; intro hh; cases hh
        refine ⟨?_, ?_, ?_⟩ <;> simp [hnc, ih1, ih2, ih3] <;> ring
      · obtain ⟨ih1, ih2, ih3⟩ := ih cash pool value
        simp only [processRequests, hp, hc, if_true, if_false, completedAmount_cons]
        have hnc : r.status ≠ .completed := by rw [hp]; intro hh; cases hh
        refine ⟨?_, ?_, ?_⟩ <;> simp [hnc, ih1, ih2, ih3]
    · obtain ⟨ih1, ih2, ih3⟩ := ih cash pool value
      simp only [processRequests, hp, if_false, completedAmount_cons]
      refine ⟨?_, ?_, ?_⟩ <;> simp [ih1, ih2, ih3]

theorem processParticipants_delta (cash pool : ℚ) (ps : List Participant) :
    (processParticipants cash pool ps).2.1 =
      cash - (completedTotal (processParticipants cash pool ps).1 -
        completedTotal ps) ∧
    (processParticipants cash pool ps).2.2.1 =
      pool - (completedTotal (processParticipants cash pool ps).1 -
        completedTotal ps) ∧
    investedTotal (processParticipants cash pool ps).1 = investedTotal ps := by
  induction ps generalizing cash pool with
  | nil => simp [processParticipants, completedTotal, investedTotal]
  | cons p ps ih =>
    obtain ⟨hr1, hr2, _⟩ :=
      processRequests_delta cash pool p.current_value p.withdrawal_requests
    obtain ⟨ih1, ih2, ih3⟩ :=
      ih (processRequests cash pool p.current_value p.withdrawal_requests).2.1
        (processRequests cash pool p.current_value p.withdrawal_requests).2.2.1
    simp only [processParticipants, completedTotal, investedTotal, List.map_cons,
      List.sum_cons] at *
    refine ⟨by linarith, by linarith, by linarith⟩

/-- The two conservation equalities of the spec, with deposits measured by
the participants' initial investments above the base value `base`. -/
def ConservedRel (base : ℚ) (s : PoolState) : Prop :=
  s.current_pool_value = s.cash_reserve + assetSum s.assets ∧
  s.current_pool_value =
    base + investedTotal s.participants - completedTotal s.participants

theorem investedTotal_append (ps qs : List Participant) :
    investedTotal (ps ++ qs) = investedTotal ps + investedTotal qs := by
  simp [investedTotal]

theorem completedTotal_append (ps qs : List Participant) :
    completedTotal (ps ++ qs) = completedTotal ps + completedTotal qs := by
  simp [completedTotal]

theorem completedAmount_append_pending (rs : List Request) (a : ℚ) :
    completedAmount (rs ++ [{ amount := a, status := .pending }]) =
      completedAmount rs := by
  simp [completedAmount, List.filter_append]

theorem investedTotal_updateParticipant (ps : List Participant) (pid : String)
    (f : Participant → Participant)
    (hf : ∀ p, (f p).initial_investment = p.initial_investment) :
    investedTotal (updateParticipant ps pid f) = investedTotal ps := by
  induction ps with
  | nil => rfl
  | cons p ps ih =>
    simp only [updateParticipant, investedTotal, List.map_cons, List.sum_cons,
      List.map_map] at *
    split <;> simp [hf, ih]

theorem completedTotal_updateParticipant (ps : List Participant) (pid : String)
    (f : Participant → Participant)
    (hf : ∀ p, completedAmount (f p).withdrawal_requests =
      completedAmount p.withdrawal_requests) :
    completedTotal (updateParticipant ps pid f) = completedTotal ps := by
  induction ps with
  | nil => rfl
  | cons p ps ih =>
    simp only [updateParticipant, completedTotal, List.map_cons, List.sum_cons,
      List.map_map] at *
    split <;> simp [hf, ih]

theorem conservedRel_step (base : ℚ) (s : PoolState) (op : Op)
    (hnm : ∀ v, op ≠ Op.markPoolValue v) (h : ConservedRel base s) :
    ConservedRel base (applyOp s op) := by
  obtain ⟨h1, h2⟩ := h
  cases op with
  | addParticipant pid inv =>
    simp only [applyOp, PoolState.add_participant]
    split
    · exact ⟨h1, h2⟩
    · constructor
      · simp only; linarith
      · simp only [investedTotal_append, completedTotal_append]
        have hI : investedTotal
            [{ id := pid, initial_investment := inv, current_value := inv }] = inv := by
          simp [investedTotal]
        have hC : completedTotal
            [{ id := pid, initial_investment := inv, current_value := inv }] = 0 := by
          simp [completedTotal, completedAmount]
        rw [hI, hC]
        linarith
  | requestWithdrawal pid amt =>
    simp only [applyOp, PoolState.request_withdrawal]
    rcases hfind : findParticipant s.participants pid with _ | p
    · simp only [hfind]
      exact ⟨h1, h2⟩
    · simp only [hfind]
      split
      · exact ⟨h1, h2⟩
      · refine ⟨h1, ?_⟩
        rw [show (updateParticipant s.participants pid fun q => { q with withdrawal_requests := q.withdrawal_requests ++ [{ amount := amt, status := WStatus.pending }] }) = updateParticipant s.participants pid fun q => { q with withdrawal_requests := q.withdrawal_requests ++ [{ amount := amt, status := WStatus.pending }] } from rfl,
          investedTotal_updateParticipant s.participants pid
            (fun q => { q with withdrawal_requests := q.withdrawal_requests ++ [{ amount := amt, status := WStatus.pending }] })
            (fun q => rfl),
          completedTotal_updateParticipant s.participants pid
            (fun q => { q with withdrawal_requests := q.withdrawal_requests ++ [{ amount := amt, status := WStatus.pending }] })
            (fun q => completedAmount_append_pending _ _)]
        exact h2
  | processWithdrawals =>
    obtain ⟨hc, hp, hi⟩ :=
      processParticipants_delta s.cash_reserve s.current_pool_value s.participants
    simp only [applyOp, PoolState.process_withdrawals]
    constructor
    · simp only; linarith
    · simp only [hi]; linarith
  | updateAssetAllocation a =>
    refine ⟨?_, ?_⟩
    · simp only [applyOp, PoolState.update_asset_allocation]; ring
    · simpa [applyOp, PoolState.update_asset_allocation] using h2
  | markPoolValue v => exact absurd rfl (hnm v)

theorem conservedRel_runOps (base : ℚ) (ops : List Op) :
    ∀ s : PoolState, ConservedRel base s →
      (∀ op ∈ ops, ∀ v, op ≠ Op.markPoolValue v) →
      ConservedRel base (runOps s ops) := by
  induction ops with
  | nil => intro s h _; exact h
  | cons op ops ih =>
    intro s h hnm
    exact ih _ (conservedRel_step _ _ _ (hnm op (by simp)) h)
      (fun o ho v => hnm o (List.mem_cons_of_mem _ ho) v)

theorem completedTotal_initParticipants (v0 : ℚ) (n : ℕ) :
    completedTotal (initParticipants v0 n) = 0 := by
  simp only [completedTotal]
  apply List.sum_eq_zero
  intro x hx
  simp only [initParticipants, List.map_map, List.mem_map] at hx
  obtain ⟨i, _, rfl⟩ := hx
  simp [completedAmount]

/-- C2 (amended): for every sequence of ledger operations that contains no
`MarkPoolValue` call, starting from a freshly constructed pool, the state
satisfies `pool_value = cash_reserve + Σ assets` and `pool_value =
initial_pool_value + Σ deposits − Σ completed withdrawals` (deposits measured
as the participants' initial investments beyond the starting roster).  A
`MarkPoolValue` call with a value different from the current pool value
breaks both equalities (see the counterexample). -/
theorem conservation_no_mark (v0 : ℚ) (n : ℕ) (ops : List Op)
    (hnm : ∀ op ∈ ops, ∀ v, op ≠ Op.markPoolValue v) :
    ConservedRel (v0 - investedTotal (initParticipants v0 n))
      (runOps (PoolState.init v0 n) ops) := by
  refine conservedRel_runOps _ _ _ ?_ hnm
  constructor
  · simp [PoolState.init, assetSum]
  · simp only [PoolState.init, completedTotal_initParticipants]
    ring

/-- Witness for C2 (amended): one deposit of 500 into a fresh pool of
100000 keeps both conservation equalities. -/
theorem conservation_no_mark_witness :
    ConservedRel (100000 - investedTotal (initParticipants 100000 0))
      (runOps (PoolState.init 100000 0) [Op.addParticipant "a" 500]) :=
  conservation_no_mark 100000 0 [Op.addParticipant "a" 500]
    (by rintro op hop v rfl; simp at hop)

/-- Counterexample to C2 as stated: `MarkPoolValue(200)` on a fresh pool of
value 100 sets `pool_value = 200` while `cash_reserve + Σ assets = 100`, so
the conservation equality fails for sequences that include `MarkPoolValue`.
-/
theorem conservation_violated_by_mark_counterexample :
    (runOps (PoolState.init 100 0) [Op.markPoolValue 200]).current_pool_value ≠
      (runOps (PoolState.init 100 0) [Op.markPoolValue 200]).cash_reserve +
        assetSum (runOps (PoolState.init 100 0) [Op.markPoolValue 200]).assets := by
  norm_num [runOps, applyOp, PoolState.init, initParticipants,
    PoolState.update_pool_value, assetSum]

/-! ## Arbitrage detector (`src/poolmind/core/arbitrage.py`) -/

/-- One venue's entry in a snapshot: the `{"bid": .., "ask": .., "volume": ..}`
dict; a missing key is `none` (`prices.get("volume", 0)` defaults to 0). -/
structure Quote where
  bid : Option ℚ := none
  ask : Option ℚ := none
  volume : Option ℚ := none
deriving DecidableEq, Repr

/-- The `ArbitrageOpportunity` dataclass (timestamp dropped). -/
structure ArbitrageOpportunity where
  symbol : String
  buy_exchange : String
  sell_exchange : String
  buy_price : ℚ
  sell_price : ℚ
  spread_pct : ℚ
  max_volume_usd : ℚ
deriving DecidableEq, Repr

/-- Embeds `ArbitrageOpportunity.estimated_fees_pct`: the constant `0.2`. -/
def ArbitrageOpportunity.estimated_fees_pct (_ : ArbitrageOpportunity) : ℚ := 1/5

/-- Embeds `ArbitrageOpportunity.profit_pct = spread_pct - estimated_fees_pct`. -/
def ArbitrageOpportunity.profit_pct (o : ArbitrageOpportunity) : ℚ :=
  o.spread_pct - o.estimated_fees_pct

/-- Insert an element into a list, placing it before the first element `y`
with `r x y`. -/
def insertOrd (r : α → α → Bool) (x : α) : List α → List α
  | [] => [x]
  | y :: ys => if r x y then x :: y :: ys else y :: insertOrd r x ys

/-- Stable insertion sort: the semantics of Python's stable `list.sort`
(`r a b` = "`a` may come no later than `b`"; ties keep original order when
`r` holds on ties). -/
def insSortBy (r : α → α → Bool) : List α → List α
  | [] => []
  | x :: xs => insertOrd r x (insSortBy r xs)

theorem mem_insertOrd (r : α → α → Bool) (x z : α) (l : List α) :
    z ∈ insertOrd r x l ↔ z = x ∨ z ∈ l := by
  induction l with
  | nil => simp [insertOrd]
  | cons y ys ih =>
    by_cases h : r x y
    · simp [insertOrd, h]
    · simp [insertOrd, h, ih]
      tauto

theorem mem_insSortBy (r : α → α → Bool) (z : α) (l : List α) :
    z ∈ insSortBy r l ↔ z ∈ l := by
  induction l with
  | nil => simp [insSortBy]
  | cons x xs ih =>
    simp [insSortBy, mem_insertOrd, ih]

theorem pairwise_insertOrd (r : α → α → Bool)
    (htot : ∀ a b, r a b = true ∨ r b a = true)
    (htrans : ∀ a b c, r a b = true → r b c = true → r a c = true)
    (x : α) (l : List α) (hl : l.Pairwise fun a b => r a b = true) :
    (insertOrd r x l).Pairwise fun a b => r a b = true := by
  induction l with
  | nil => simp [insertOrd]
  | cons y ys ih =>
    rcases List.pairwise_cons.mp hl with ⟨hy, hys⟩
    by_cases h : r x y
    · simp only [insertOrd, h, if_true]
      refine List.pairwise_cons.mpr ⟨?_, hl⟩
      intro z hz
      rcases List.mem_cons.mp hz with rfl | hz'
      · exact h
      · exact htrans _ _ _ h (hy _ hz')
    · simp only [insertOrd, h, if_false]
      refine List.pairwise_cons.mpr ⟨?_, ih hys⟩
      intro z hz
      rcases (mem_insertOrd r x z ys).mp hz with rfl | hz'
      · rcases htot z y with hh | hh
        · exact absurd hh h
        · exact hh
      · exact hy _ hz'

theorem pairwise_insSortBy (r : α → α → Bool)
    (htot : ∀ a b, r a b = true ∨ r b a = true)
    (htrans : ∀ a b c, r a b = true → r b c = true → r a c = true)
    (l : List α) :
    (insSortBy r l).Pairwise fun a b => r a b = true := by
  induction l with
  | nil => simp [insSortBy]
  | cons x xs ih =>
    exact pairwise_insertOrd r htot htrans x _ ih

/-- Collect `(exchange, bid, volume)` for venues quoting a positive bid, in
snapshot order. -/
def collectBids (ex : List (String × Quote)) : List (String × ℚ × ℚ) :=
  ex.filterMap fun eq =>
    match eq.2.bid with
    | some b => if 0 < b then some (eq.1, b, eq.2.volume.getD 0) else none
    | none => none

/-- Collect `(exchange, ask, volume)` for venues quoting a positive ask, in
snapshot order. -/
def collectAsks (ex : List (String × Quote)) : List (String × ℚ × ℚ) :=
  ex.filterMap fun eq =>
    match eq.2.ask with
    | some a => if 0 < a then some (eq.1, a, eq.2.volume.getD 0) else none
    | none => none

/-- Per-symbol body of `ArbitrageDetector.scan_for_opportunities`: sort bids
descending and asks ascending by price, then for every
(sell-venue, buy-venue) pair with distinct venues emit an opportunity when
`spread_pct = (sell − buy)/buy · 100` strictly exceeds the threshold; its
size cap is `min(sell_volume, buy_volume) · buy_price`. -/
def opportunitiesFor (minSpread : ℚ) (symbol : String)
    (ex : List (String × Quote)) : List ArbitrageOpportunity :=
  let best_bids := insSortBy (fun a b => decide (b.2.1 ≤ a.2.1)) (collectBids ex)
  let best_asks := insSortBy (fun a b => decide (a.2.1 ≤ b.2.1)) (collectAsks ex)
  best_bids.flatMap fun sb =>
    best_asks.filterMap fun ba =>
      if sb.1 = ba.1 then none
      else
        if minSpread < (sb.2.1 - ba.2.1) / ba.2.1 * 100 then
          some { symbol := symbol
                 buy_exchange := ba.1
                 sell_exchange := sb.1
                 buy_price := ba.2.1
                 sell_price := sb.2.1
                 spread_pct := (sb.2.1 - ba.2.1) / ba.2.1 * 100
                 max_volume_usd := min sb.2.2 ba.2.2 * ba.2.1 }
        else none

/-- Embeds `ArbitrageDetector.scan_for_opportunities`: per-symbol enumeration in
snapshot order followed by a stable sort by `profit_pct` descending. -/
def scan_for_opportunities (minSpread : ℚ)
    (md : List (String × List (String × Quote))) : List ArbitrageOpportunity :=
  insSortBy (fun a b => decide (b.profit_pct ≤ a.profit_pct))
    (md.flatMap fun se => opportunitiesFor minSpread se.1 se.2)

theorem collectAsks_pos (ex : List (String × Quote)) :
    ∀ x ∈ collectAsks ex, 0 < x.2.1 := by
  intro x hx
  simp only [collectAsks, List.mem_filterMap] at hx
  obtain ⟨eq, _, heq⟩ := hx
  rcases ha : eq.2.ask with _ | a <;> rw [ha] at heq
  · cases heq
  · by_cases h0 : 0 < a
    · simp only [h0, if_true, Option.some.injEq] at heq
      subst heq
      exact h0
    · simp [h0] at heq

/-- C5: with a non-negative spread threshold, every opportunity emitted by
the scan has `sell_price > buy_price`, distinct venues, and
`spread_pct > minSpread`. -/
theorem scan_sound (md : List (String × List (String × Quote))) (minSpread : ℚ)
    (hth : 0 ≤ minSpread) :
    ∀ opp ∈ scan_for_opportunities minSpread md,
      opp.buy_price < opp.sell_price ∧
      opp.buy_exchange ≠ opp.sell_exchange ∧
      minSpread < opp.spread_pct := by
  intro opp hopp
  rw [scan_for_opportunities, mem_insSortBy, List.mem_flatMap] at hopp
  obtain ⟨se, _, hopp⟩ := hopp
  rw [opportunitiesFor, List.mem_flatMap] at hopp
  obtain ⟨sb, hsb, hopp⟩ := hopp
  rw [List.mem_filterMap] at hopp
  obtain ⟨ba, hba, heq⟩ := hopp
  by_cases hsame : sb.1 = ba.1
  · simp [hsame] at heq
  · rw [if_neg hsame] at heq
    by_cases hsp : minSpread < (sb.2.1 - ba.2.1) / ba.2.1 * 100
    · rw [if_pos hsp, Option.some.injEq] at heq
      subst heq
      have hbpos : 0 < ba.2.1 := by
        rw [mem_insSortBy] at hba
        exact collectAsks_pos _ _ hba
      refine ⟨?_, fun hcontra => hsame hcontra.symm, hsp⟩
      have hpos : 0 < (sb.2.1 - ba.2.1) / ba.2.1 * 100 := lt_of_le_of_lt hth hsp
      have hdiv : 0 < (sb.2.1 - ba.2.1) / ba.2.1 := by linarith
      rcases div_pos_iff.mp hdiv with ⟨hnum, _⟩ | ⟨_, hden⟩
      · simp only [ArbitrageOpportunity.buy_price, ArbitrageOpportunity.sell_price]
        linarith
      · linarith
    · simp [hsp] at heq

/-- C6 (amended): the scan output is monotonically non-increasing in
`profit_pct`.  Ties are left in enumeration order by the stable sort — they
are not reordered by symbol or buy venue (see the counterexample). -/
theorem scan_ranked (minSpread : ℚ) (md : List (String × List (String × Quote))) :
    (scan_for_opportunities minSpread md).Pairwise
      fun a b => b.profit_pct ≤ a.profit_pct := by
  have h := pairwise_insSortBy
    (fun a b : ArbitrageOpportunity => decide (b.profit_pct ≤ a.profit_pct))
    (fun a b => by
      rcases le_total b.profit_pct a.profit_pct with h | h
      · exact Or.inl (decide_eq_true h)
      · exact Or.inr (decide_eq_true h))
    (fun a b c hab hbc => by
      have h1 := of_decide_eq_true hab
      have h2 := of_decide_eq_true hbc
      exact decide_eq_true (le_trans h2 h1))
    (md.flatMap fun se => opportunitiesFor minSpread se.1 se.2)
  refine (List.Pairwise.imp ?_ h)
  intro a b hab
  exact of_decide_eq_true hab

/-- Concrete snapshot (the spec's scenario S2): `BTC/USDT` on venue `A`
(bid 49000, ask 49100, volume 10) and venue `B` (bid 49900, ask 50000,
volume 8). -/
def c5md : List (String × List (String × Quote)) :=
  [("BTC/USDT",
    [("A", { bid := some 49000, ask := some 49100, volume := some 10 }),
     ("B", { bid := some 49900, ask := some 50000, volume := some 8 })])]

/-- The single opportunity the scan finds in `c5md`: buy on `A` at 49100,
sell on `B` at 49900. -/
def c5opp : ArbitrageOpportunity :=
  { symbol := "BTC/USDT"
    buy_exchange := "A"
    sell_exchange := "B"
    buy_price := 49100
    sell_price := 49900
    spread_pct := 800/491
    max_volume_usd := 392800 }

theorem scan_c5md_eval : scan_for_opportunities (1/2) c5md = [c5opp] := by
  have hBA : ("B" : String) = "A" ↔ False := iff_false_intro (by decide)
  have hAB : ("A" : String) = "B" ↔ False := iff_false_intro (by decide)
  norm_num [scan_for_opportunities, c5md, c5opp, opportunitiesFor, collectBids,
    collectAsks, insSortBy, insertOrd, Option.getD, hBA, hAB,
    List.filterMap_cons, ArbitrageOpportunity.profit_pct,
    ArbitrageOpportunity.estimated_fees_pct]

/-- Witness for C5 at the concrete snapshot `c5md` with threshold 1/2: the
emitted opportunity buys on `A` at 49100, sells on `B` at 49900, and its
spread percentage 800/491 exceeds the threshold. -/
theorem scan_sound_witness :
    (0 : ℚ) ≤ 1/2 ∧
    (c5opp.buy_price < c5opp.sell_price ∧
     c5opp.buy_exchange ≠ c5opp.sell_exchange ∧
     (1/2 : ℚ) < c5opp.spread_pct) :=
  ⟨by norm_num,
   scan_sound c5md (1/2) (by norm_num) c5opp
     (by rw [scan_c5md_eval]; exact List.mem_singleton.mpr rfl)⟩

/-- Snapshot producing four equal-profit opportunities: one symbol, asks on
`A` and `B` at 100, bids on `C` and `D` at 101, all with volume 1. -/
def c6md : List (String × List (String × Quote)) :=
  [("S",
    [("A", { ask := some 100, volume := some 1 }),
     ("B", { ask := some 100, volume := some 1 }),
     ("C", { bid := some 101, volume := some 1 }),
     ("D", { bid := some 101, volume := some 1 })])]

/-- Counterexample to C6 as stated: on `c6md` every emitted opportunity has
the same symbol and the same `profit_pct`, yet the buy venues appear in
order `A, B, A, B` with `A ≠ B` — a sequence that is not monotone under any
total order on venue names, so equal-`profit_pct` ties are NOT broken by
symbol ascending then buy venue ascending; the stable sort keeps
enumeration order. -/
theorem scan_tiebreak_counterexample :
    ((scan_for_opportunities (1/2) c6md).map
      fun o => (o.symbol, o.buy_exchange, o.profit_pct)) =
      [("S", "A", 4/5), ("S", "B", 4/5), ("S", "A", 4/5), ("S", "B", 4/5)] ∧
    ("A" : String) ≠ "B" := by
  constructor
  · have hCA : ("C" : String) = "A" ↔ False := iff_false_intro (by decide)
    have hCB : ("C" : String) = "B" ↔ False := iff_false_intro (by decide)
    have hDA : ("D" : String) = "A" ↔ False := iff_false_intro (by decide)
    have hDB : ("D" : String) = "B" ↔ False := iff_false_intro (by decide)
    norm_num [scan_for_opportunities, c6md, opportunitiesFor, collectBids,
      collectAsks, insSortBy, insertOrd, Option.getD, hCA, hCB, hDA, hDB,
      List.filterMap_cons, ArbitrageOpportunity.profit_pct,
      ArbitrageOpportunity.estimated_fees_pct]
  · decide

/-! ## C3 — executor (`ArbitrageExecutor.execute_arbitrage`) -/

/-- The execution-result record (timestamp dropped). -/
structure ExecutionResult where
  position_size_usd : ℚ
  asset_amount : ℚ
  actual_buy_price : ℚ
  actual_sell_price : ℚ
  cost_usd : ℚ
  revenue_usd : ℚ
  profit_usd : ℚ
  profit_pct : ℚ
  success : Bool
deriving DecidableEq, Repr

/-- Embeds `ArbitrageExecutor.execute_arbitrage` with the two uniform slippage
draws (`random.uniform(0, 0.2)`, in percent) passed explicitly. -/
def execute_arbitrage (opp : ArbitrageOpportunity) (position_size_usd : ℚ)
    (buy_slippage_pct sell_slippage_pct : ℚ) : ExecutionResult :=
  let asset_amount := position_size_usd / opp.buy_price
  let actual_buy_price := opp.buy_price * (1 + buy_slippage_pct / 100)
  let actual_sell_price := opp.sell_price * (1 - sell_slippage_pct / 100)
  let cost_usd := asset_amount * actual_buy_price
  let revenue_usd := asset_amount * actual_sell_price
  let profit_usd := revenue_usd - cost_usd
  let profit_pct := profit_usd / cost_usd * 100
  { position_size_usd := position_size_usd
    asset_amount := asset_amount
    actual_buy_price := actual_buy_price
    actual_sell_price := actual_sell_price
    cost_usd := cost_usd
    revenue_usd := revenue_usd
    profit_usd := profit_usd
    profit_pct := profit_pct
    success := decide (0 < profit_pct) }

/-- C3 (amended): with both slippage draws forced to 0,
`profit_usd = size_usd · (sell − buy) / buy` exactly — equivalently
`size_usd · spread_pct / 100` whenever `spread_pct` is the true spread of
the opportunity's prices.  No fee factor is applied: the 0.2 % fee constant
enters `ArbitrageOpportunity.profit_pct` only, never the executor's
realized profit. -/
theorem execute_zero_slippage_profit (opp : ArbitrageOpportunity) (size : ℚ)
    (hbuy : opp.buy_price ≠ 0) :
    (execute_arbitrage opp size 0 0).profit_usd =
      size * (opp.sell_price - opp.buy_price) / opp.buy_price ∧
    (opp.spread_pct = (opp.sell_price - opp.buy_price) / opp.buy_price * 100 →
      (execute_arbitrage opp size 0 0).profit_usd = size * opp.spread_pct / 100) := by
  constructor
  · simp only [execute_arbitrage]
    field_simp
    ring
  · intro hsp
    simp only [execute_arbitrage, hsp]
    field_simp
    ring

/-- A concrete opportunity for the executor claims: buy at 100, sell at
101, true spread 1 %. -/
def c3opp : ArbitrageOpportunity :=
  { symbol := "X"
    buy_exchange := "A"
    sell_exchange := "B"
    buy_price := 100
    sell_price := 101
    spread_pct := 1
    max_volume_usd := 1000000 }

/-- Witness for C3 (amended): executing `c3opp` with size 100 and zero
slippage yields profit 1 = 100 · 1/100, with no fee factor. -/
theorem execute_zero_slippage_profit_witness :
    c3opp.buy_price ≠ 0 ∧
    ((execute_arbitrage c3opp 100 0 0).profit_usd =
      100 * (c3opp.sell_price - c3opp.buy_price) / c3opp.buy_price ∧
    (c3opp.spread_pct = (c3opp.sell_price - c3opp.buy_price) / c3opp.buy_price * 100 →
      (execute_arbitrage c3opp 100 0 0).profit_usd = 100 * c3opp.spread_pct / 100)) :=
  ⟨by norm_num [c3opp], execute_zero_slippage_profit c3opp 100 (by norm_num [c3opp])⟩

/-- Counterexample to C3 as stated: with zero slippage the realized profit
on `c3opp` at size 100 is exactly 1 = size · spread_pct/100, not
`size · spread_pct/100 · (1 − fee_pct)` — whether `fee_pct` is read as the
fraction 0.002 or as the raw constant 0.2. -/
theorem executor_no_fee_counterexample :
    (execute_arbitrage c3opp 100 0 0).profit_usd = 1 ∧
    (execute_arbitrage c3opp 100 0 0).profit_usd ≠
      100 * c3opp.spread_pct / 100 * (1 - 2/1000) ∧
    (execute_arbitrage c3opp 100 0 0).profit_usd ≠
      100 * c3opp.spread_pct / 100 * (1 - 2/10) := by
  norm_num [execute_arbitrage, c3opp]

/-! ## C7 — rule-based fallback strategy (`src/research.py`) -/

/-- The `ArbitrageOpportunity` dataclass of `research.py` (timestamp dropped);
note its volume field is `volume_available`. -/
structure ROpportunity where
  symbol : String
  buy_exchange : String
  sell_exchange : String
  buy_price : ℚ
  sell_price : ℚ
  spread_percent : ℚ
  volume_available : ℚ
  gas_cost_estimate : ℚ
  profit_estimate : ℚ
  risk_score : ℤ
  confidence : ℚ
deriving DecidableEq, Repr

/-- The dict returned by
`PoolAwareStrategyGenerator._fallback_strategy` (timestamps and the
stop-loss trigger strings dropped). -/
structure FallbackStrategy where
  selected_opportunities : List ℕ
  position_sizes : List ℚ
  risk_assessment : String
  execution_order : List ℕ
  reasoning : String
  fallback : Bool
  confidence : ℚ
deriving DecidableEq, Repr

/-- Tier size: 1 opportunity below 10 k, 3 below 100 k, else 5. -/
def fallbackCount (pool_size : ℚ) : ℕ :=
  if pool_size < 10000 then 1 else if pool_size < 100000 then 3 else 5

/-- Tier fraction of pool value: 2 % below 10 k, 5 % below 100 k, else 10 %. -/
def fallbackPct (pool_size : ℚ) : ℚ :=
  if pool_size < 10000 then 2/100 else if pool_size < 100000 then 5/100 else 10/100

/-- Tier label. -/
def fallbackLabel (pool_size : ℚ) : String :=
  if pool_size < 10000 then "CONSERVATIVE"
  else if pool_size < 100000 then "MODERATE" else "AGGRESSIVE"

/-- Embeds `sorted(opportunities, key=lambda x: x.spread_percent, reverse=True)`. -/
def sorted_ops (opportunities : List ROpportunity) : List ROpportunity :=
  insSortBy (fun a b => decide (b.spread_percent ≤ a.spread_percent)) opportunities

/-- Embeds `PoolAwareStrategyGenerator._fallback_strategy`: select the top
opportunities by spread and equal-weight the tier's total across them.
No volume cap is applied anywhere. -/
def fallback_strategy (pool_size : ℚ) (opportunities : List ROpportunity) :
    FallbackStrategy :=
  let selected := (sorted_ops opportunities).take (fallbackCount pool_size)
  { selected_opportunities := selected.map fun op => opportunities.indexOf op
    position_sizes :=
      List.replicate selected.length
        (pool_size * fallbackPct pool_size / selected.length)
    risk_assessment := "MEDIUM"
    execution_order := List.range selected.length
    reasoning :=
      "Fallback " ++ fallbackLabel pool_size ++ " strategy due to LLM failure"
    fallback := true
    confidence := 6/10 }

theorem length_insertOrd (r : α → α → Bool) (x : α) (l : List α) :
    (insertOrd r x l).length = l.length + 1 := by
  induction l with
  | nil => rfl
  | cons y ys ih =>
    by_cases h : r x y <;> simp [insertOrd, h, ih]

theorem length_insSortBy (r : α → α → Bool) (l : List α) :
    (insSortBy r l).length = l.length := by
  induction l with
  | nil => rfl
  | cons x xs ih => simp [insSortBy, length_insertOrd, ih]

theorem pairwise_take_drop {r : α → α → Prop} (l : List α) (h : l.Pairwise r)
    (n : ℕ) : ∀ a ∈ l.take n, ∀ b ∈ l.drop n, r a b := by
  have hsplit : l.take n ++ l.drop n = l := List.take_append_drop n l
  rw [← hsplit] at h
  exact (List.pairwise_append.mp h).2.2

theorem one_le_fallbackCount (pool_size : ℚ) : 1 ≤ fallbackCount pool_size := by
  simp only [fallbackCount]
  split_ifs <;> norm_num

/-- C7 (amended): for a non-empty opportunity list the fallback follows the
tiers — `min(tier count, available)` opportunities, equal-weighted so that
the sizes always total exactly the tier fraction of pool value (2 % below
10 k, 5 % below 100 k, 10 % otherwise), selected from the top of the
spread-sorted list — but NO volume cap is applied: a proposed size may
exceed the opportunity's available volume (see the counterexample). -/
theorem fallback_tiered (pool_size : ℚ) (opps : List ROpportunity)
    (hne : opps ≠ []) :
    (fallback_strategy pool_size opps).position_sizes.length =
      min (fallbackCount pool_size) opps.length ∧
    (∀ x ∈ (fallback_strategy pool_size opps).position_sizes,
      x = pool_size * fallbackPct pool_size /
        (min (fallbackCount pool_size) opps.length : ℕ)) ∧
    (fallback_strategy pool_size opps).position_sizes.sum =
      pool_size * fallbackPct pool_size ∧
    (∀ a ∈ (sorted_ops opps).take (fallbackCount pool_size),
     ∀ b ∈ (sorted_ops opps).drop (fallbackCount pool_size),
       b.spread_percent ≤ a.spread_percent) := by
  have hlen : ((sorted_ops opps).take (fallbackCount pool_size)).length =
      min (fallbackCount pool_size) opps.length := by
    simp [List.length_take, sorted_ops, length_insSortBy]
  have hmin1 : 1 ≤ min (fallbackCount pool_size) opps.length :=
    le_min (one_le_fallbackCount _) (List.length_pos.mpr hne)
  have hcast : ((min (fallbackCount pool_size) opps.length : ℕ) : ℚ) ≠ 0 :=
    Nat.cast_ne_zero.mpr (by omega)
  refine ⟨?_, ?_, ?_, ?_⟩
  · simp [fallback_strategy, hlen]
  · intro x hx
    simp only [fallback_strategy, List.mem_replicate] at hx
    rw [hx.2, hlen]
  · simp only [fallback_strategy, List.sum_replicate, hlen, nsmul_eq_mul]
    field_simp
    exact mul_div_cancel_left₀ _ (by rw [← Nat.cast_min]; exact hcast)
  · intro a ha b hb
    have hpw := pairwise_insSortBy
      (fun a b : ROpportunity => decide (b.spread_percent ≤ a.spread_percent))
      (fun a b => by
        rcases le_total b.spread_percent a.spread_percent with h | h
        · exact Or.inl (decide_eq_true h)
        · exact Or.inr (decide_eq_true h))
      (fun a b c hab hbc => by
        have h1 := of_decide_eq_true hab
        have h2 := of_decide_eq_true hbc
        exact decide_eq_true (le_trans h2 h1))
      opps
    exact of_decide_eq_true
      (pairwise_take_drop _ hpw (fallbackCount pool_size) a ha b hb)

/-- The single opportunity of the C7 counterexample: spread 2 %, only 100
USD of volume available. -/
def c7opp : ROpportunity :=
  { symbol := "S"
    buy_exchange := "A"
    sell_exchange := "B"
    buy_price := 100
    sell_price := 102
    spread_percent := 2
    volume_available := 100
    gas_cost_estimate := 50
    profit_estimate := 0
    risk_score := 5
    confidence := 8/10 }

/-- Witness for C7 (amended) on a 50 000 pool with the single opportunity
`c7opp`: tier MODERATE proposes one size of 5 % · 50000 = 2500. -/
theorem fallback_tiered_witness :
    [c7opp] ≠ [] ∧
    (fallback_strategy 50000 [c7opp]).position_sizes.sum =
      50000 * fallbackPct 50000 :=
  ⟨by simp, (fallback_tiered 50000 [c7opp] (by simp)).2.2.1⟩

/-- Counterexample to C7 as stated: on a 50 000 pool the fallback proposes
a single position of 2500 USD for `c7opp`, whose available volume is only
100 USD — the proposal exceeds the opportunity's volume cap; nothing is
truncated. -/
theorem fallback_volume_counterexample :
    (fallback_strategy 50000 [c7opp]).position_sizes = [2500] ∧
    ¬ (2500 : ℚ) ≤ c7opp.volume_available := by
  constructor
  · norm_num [fallback_strategy, sorted_ops, insSortBy, insertOrd, c7opp,
      fallbackCount, fallbackPct, List.replicate]
  · norm_num [c7opp]

/-! ## C8 — oracle failure path (`src/poolmind/ai/agent.py`,
`src/poolmind/main.py`) -/

/-- The strategy dict of the oracle's `recommend_strategy` tool schema. -/
structure Strategy where
  selected_opportunities : List ℤ
  position_sizes : List ℚ
  risk_assessment : String
  reasoning : String
deriving DecidableEq, Repr

/-- One entry of `message["tool_calls"]`; `arguments` is the result of
`json.loads` on the call's arguments — `none` models a parse failure
(`JSONDecodeError`/`KeyError`, caught and logged). -/
structure ToolCall where
  name : String
  arguments : Option Strategy
deriving DecidableEq, Repr

/-- Outcome of `LLMAgent.function_call`: either `{"error": msg}` (API error
or unparseable response) or `{"tool_calls": .., "content": ..}` (the list is
empty when the message carried no tool calls). -/
inductive OracleResult where
  | error (msg : String)
  | toolCalls (calls : List ToolCall) (content : String)
deriving DecidableEq, Repr

/-- What `StrategyAgent.generate_strategy` returns: either a dict containing
`"error"` or one containing `"strategy"`. -/
inductive StrategyResult where
  | error (msg : String)
  | ok (strategy : Strategy)
deriving DecidableEq, Repr

/-- The safe empty strategy substituted when function calling fails
("Fallback if function calling fails" in `generate_strategy`). -/
def fallbackEmptyStrategy : Strategy :=
  { selected_opportunities := []
    position_sizes := []
    risk_assessment := "Unable to assess risk due to error"
    reasoning := "Error generating strategy with function calling" }

/-- Embeds `StrategyAgent.generate_strategy` as a function of the oracle outcome:
an error return is propagated as `{"error": ..}`; otherwise the first tool
call is used when it is named `recommend_strategy` and parses, and every
other shape falls through to the safe empty strategy. -/
def generate_strategy : OracleResult → StrategyResult
  | .error msg => .error msg
  | .toolCalls calls _ =>
    match calls with
    | [] => .ok fallbackEmptyStrategy
    | c :: _ =>
      if c.name = "recommend_strategy" then
        match c.arguments with
        | some s => .ok s
        | none => .ok fallbackEmptyStrategy
      else .ok fallbackEmptyStrategy

/-- The status `PoolMind.run_cycle` records for the strategy phase: when
`generate_strategy` returns `{"error": ..}` the cycle returns immediately
with `"status": "error"`; otherwise the cycle proceeds and is recorded
`"completed"`. -/
def cycle_status_of (r : OracleResult) : String :=
  match generate_strategy r with
  | .error _ => "error"
  | .ok _ => "completed"

/-- C8 (amended): an oracle transport/API error makes `run_cycle` record the
cycle with status `"error"` — no fallback proposal is produced on that
path — while oracle output that is merely invalid (no tool calls, wrong
tool name, or unparseable arguments) is replaced by the safe empty
proposal (not the rule-based tiered fallback) and the cycle completes. -/
theorem oracle_failure_handling :
    (∀ msg, cycle_status_of (.error msg) = "error" ∧
      generate_strategy (.error msg) = .error msg) ∧
    (∀ (calls : List ToolCall) (content : String),
      cycle_status_of (.toolCalls calls content) = "completed") ∧
    (∀ content, generate_strategy (.toolCalls [] content) =
      .ok fallbackEmptyStrategy) ∧
    (∀ (c : ToolCall) (rest : List ToolCall) (content : String),
      c.arguments = none →
        generate_strategy (.toolCalls (c :: rest) content) =
          .ok fallbackEmptyStrategy) := by
  refine ⟨fun msg => ⟨rfl, rfl⟩, ?_, fun content => rfl, ?_⟩
  · intro calls content
    rcases calls with _ | ⟨c, rest⟩
    · rfl
    · simp only [cycle_status_of, generate_strategy]
      by_cases hn : c.name = "recommend_strategy"
      · rcases ha : c.arguments with _ | s <;> simp [hn, ha]
      · simp [hn]
  · intro c rest content ha
    simp only [generate_strategy, ha]
    by_cases hn : c.name = "recommend_strategy" <;> simp [hn]

/-- Witness for C8 (amended): a tool call named `recommend_strategy` whose
arguments fail to parse yields the safe empty strategy. -/
theorem oracle_failure_handling_witness :
    ({ name := "recommend_strategy", arguments := none } : ToolCall).arguments
        = none ∧
    generate_strategy
        (.toolCalls [{ name := "recommend_strategy", arguments := none }] "") =
      .ok fallbackEmptyStrategy :=
  ⟨rfl,
   oracle_failure_handling.2.2.2
     { name := "recommend_strategy", arguments := none } [] "" rfl⟩

/-- Counterexample to C8 as stated: when the oracle call fails with an
error return (e.g. a timeout), `run_cycle` records the cycle with status
`"error"` — not `"completed"` — and no fallback proposal is produced. -/
theorem oracle_error_aborts_cycle_counterexample :
    cycle_status_of (.error "API timeout") = "error" ∧
    generate_strategy (.error "API timeout") = .error "API timeout" ∧
    ("error" : String) ≠ "completed" := by
  refine ⟨rfl, rfl, by decide⟩

/-! ## C10 — request_withdrawal semantics -/

theorem processRequests_no_pending_id (cash pool value : ℚ) (rs : List Request)
    (h : ∀ r ∈ rs, r.status ≠ .pending) :
    processRequests cash pool value rs = (rs, cash, pool, value, []) := by
  induction rs with
  | nil => rfl
  | cons r rs ih =>
    have hr : r.status ≠ .pending := h r (by simp)
    simp only [processRequests, if_neg hr]
    rw [ih fun r' hr' => h r' (List.mem_cons_of_mem _ hr')]

theorem processRequests_append_neg (cash pool value amt : ℚ) (rs : List Request)
    (h : ∀ r ∈ rs, r.status ≠ .pending) (hamt : amt ≤ 0) (hcash : 0 ≤ cash) :
    processRequests cash pool value (rs ++ [{ amount := amt, status := .pending }]) =
      (rs ++ [{ amount := amt, status := .completed }],
       cash - amt, pool - amt, value - amt, [(amt, .completed)]) := by
  induction rs generalizing cash pool value with
  | nil =>
    have hle : amt ≤ cash := le_trans hamt hcash
    simp [processRequests, hle]
  | cons r rs ih =>
    have hr : r.status ≠ .pending := h r (by simp)
    simp only [List.cons_append, List.append_eq, processRequests, if_neg hr]
    rw [ih cash pool value (fun r' hr' => h r' (List.mem_cons_of_mem _ hr')) hcash]

theorem processParticipants_no_pending_id (cash pool : ℚ)
    (ps : List Participant)
    (h : ∀ p ∈ ps, ∀ r ∈ p.withdrawal_requests, r.status ≠ .pending) :
    processParticipants cash pool ps = (ps, cash, pool, []) := by
  induction ps generalizing cash pool with
  | nil => rfl
  | cons p ps ih =>
    simp only [processParticipants]
    rw [processRequests_no_pending_id _ _ _ _ (h p (by simp)),
      ih _ _ fun q hq => h q (List.mem_cons_of_mem _ hq)]
    rfl

theorem processParticipants_append (cash pool : ℚ)
    (ps₁ rest : List Participant)
    (h : ∀ p ∈ ps₁, ∀ r ∈ p.withdrawal_requests, r.status ≠ .pending) :
    processParticipants cash pool (ps₁ ++ rest) =
      (ps₁ ++ (processParticipants cash pool rest).1,
       (processParticipants cash pool rest).2) := by
  induction ps₁ generalizing cash pool with
  | nil => rfl
  | cons p ps ih =>
    simp only [List.cons_append, List.append_eq, processParticipants]
    rw [processRequests_no_pending_id _ _ _ _ (h p (by simp)),
      ih _ _ fun q hq => h q (List.mem_cons_of_mem _ hq)]
    rfl

theorem findParticipant_split (ps₁ ps₂ : List Participant) (p : Participant)
    (pid : String) (h₁ : ∀ q ∈ ps₁, q.id ≠ pid) (hp : p.id = pid) :
    findParticipant (ps₁ ++ p :: ps₂) pid = some p := by
  induction ps₁ with
  | nil => simp [findParticipant, List.find?_cons, hp]
  | cons q qs ih =>
    have hq : q.id ≠ pid := h₁ q (by simp)
    simp only [findParticipant, List.cons_append, List.find?_cons] at *
    rw [decide_eq_false hq]
    exact ih fun x hx => h₁ x (List.mem_cons_of_mem _ hx)

theorem updateParticipant_not_mem (ps : List Participant) (pid : String)
    (f : Participant → Participant) (h : ∀ q ∈ ps, q.id ≠ pid) :
    updateParticipant ps pid f = ps := by
  induction ps with
  | nil => rfl
  | cons q qs ih =>
    have hq : q.id ≠ pid := h q (by simp)
    simp only [updateParticipant, List.map_cons, if_neg hq] at *
    rw [ih fun x hx => h x (List.mem_cons_of_mem _ hx)]

theorem updateParticipant_split (ps₁ ps₂ : List Participant) (p : Participant)
    (pid : String) (f : Participant → Participant)
    (h₁ : ∀ q ∈ ps₁, q.id ≠ pid) (h₂ : ∀ q ∈ ps₂, q.id ≠ pid)
    (hp : p.id = pid) :
    updateParticipant (ps₁ ++ p :: ps₂) pid f = ps₁ ++ f p :: ps₂ := by
  simp only [updateParticipant, List.map_append, List.map_cons, if_pos hp]
  have e₁ : updateParticipant ps₁ pid f = ps₁ := updateParticipant_not_mem _ _ _ h₁
  have e₂ : updateParticipant ps₂ pid f = ps₂ := updateParticipant_not_mem _ _ _ h₂
  simp only [updateParticipant] at e₁ e₂
  rw [e₁, e₂]

/-- C10: (i) `request_withdrawal` returns `False` exactly when the
participant id is unknown or the amount strictly exceeds the participant's
current value; (ii) in particular, for an existing participant with
non-negative value and any `amount ≤ 0`, the request is accepted and — when
no other request is pending and the reserve is non-negative — the next
`process_withdrawals` completes it, moving `cash_reserve`, `pool_value` and
the participant's value by `−amount`, i.e. increasing all three when the
amount is negative. -/
theorem request_withdrawal_validation :
    (∀ (s : PoolState) (pid : String) (amt : ℚ),
      (s.request_withdrawal pid amt).2 = false ↔
        (findParticipant s.participants pid = none ∨
         ∃ p, findParticipant s.participants pid = some p ∧
           p.current_value < amt)) ∧
    (∀ (s : PoolState) (pid : String) (amt : ℚ)
       (ps₁ ps₂ : List Participant) (p : Participant),
      s.participants = ps₁ ++ p :: ps₂ →
      (∀ q ∈ ps₁, q.id ≠ pid) →
      (∀ q ∈ ps₂, q.id ≠ pid) →
      p.id = pid →
      (∀ q ∈ s.participants, ∀ r ∈ q.withdrawal_requests,
        r.status ≠ .pending) →
      0 ≤ s.cash_reserve →
      0 ≤ p.current_value →
      amt ≤ 0 →
      (s.request_withdrawal pid amt).2 = true ∧
      (s.request_withdrawal pid amt).1.process_withdrawals.2 =
        [{ participant_id := pid, amount := amt, status := .completed }] ∧
      (s.request_withdrawal pid amt).1.process_withdrawals.1.cash_reserve =
        s.cash_reserve - amt ∧
      (s.request_withdrawal pid amt).1.process_withdrawals.1.current_pool_value =
        s.current_pool_value - amt ∧
      (s.request_withdrawal pid amt).1.process_withdrawals.1.participants =
        ps₁ ++ { p with
          current_value := p.current_value - amt,
          withdrawal_requests := p.withdrawal_requests ++
            [{ amount := amt, status := .completed }] } :: ps₂ ∧
      (amt < 0 →
        s.cash_reserve <
          (s.request_withdrawal pid amt).1.process_withdrawals.1.cash_reserve ∧
        s.current_pool_value <
          (s.request_withdrawal pid amt).1.process_withdrawals.1.current_pool_value ∧
        p.current_value < p.current_value - amt)) := by
  constructor
  · intro s pid amt
    rcases hfind : findParticipant s.participants pid with _ | p
    · simp [PoolState.request_withdrawal, hfind]
    · simp only [PoolState.request_withdrawal, hfind]
      by_cases hgt : amt > p.current_value
      · simp [hgt]
      · simp only [if_neg hgt]
        constructor
        · intro hcontra; cases hcontra
        · rintro (h | ⟨p', hp', hlt⟩)
          · cases h
          · rw [Option.some.injEq] at hp'
            subst hp'
            exact absurd hlt hgt
  · intro s pid amt ps₁ ps₂ p hsplit h₁ h₂ hpid hnp hcash hval hamt
    have hfind : findParticipant (ps₁ ++ p :: ps₂) pid = some p :=
      findParticipant_split _ _ _ _ h₁ hpid
    have hnogt : ¬ amt > p.current_value := not_lt.mpr (le_trans hamt hval)
    have hret : s.request_withdrawal pid amt =
        ({ s with participants := ps₁ ++ { p with
            withdrawal_requests := p.withdrawal_requests ++
              [{ amount := amt, status := .pending }] } :: ps₂ }, true) := by
      simp only [PoolState.request_withdrawal, hsplit, hfind, if_neg hnogt]
      rw [updateParticipant_split _ _ _ _ _ h₁ h₂ hpid]
    rw [hret]
    have hnp₁ : ∀ q ∈ ps₁, ∀ r ∈ q.withdrawal_requests, r.status ≠ .pending :=
      fun q hq => hnp q (by rw [hsplit]; exact List.mem_append_left _ hq)
    have hnp₂ : ∀ q ∈ ps₂, ∀ r ∈ q.withdrawal_requests, r.status ≠ .pending :=
      fun q hq => hnp q (by
        rw [hsplit]
        exact List.mem_append_right _ (List.mem_cons_of_mem _ hq))
    have hnpp : ∀ r ∈ p.withdrawal_requests, r.status ≠ .pending :=
      hnp p (by rw [hsplit]; exact List.mem_append_right _ (by simp))
    have hproc :
        processParticipants s.cash_reserve s.current_pool_value
          (ps₁ ++ { p with withdrawal_requests := p.withdrawal_requests ++
            [{ amount := amt, status := .pending }] } :: ps₂) =
        (ps₁ ++ { p with
            current_value := p.current_value - amt,
            withdrawal_requests := p.withdrawal_requests ++
              [{ amount := amt, status := .completed }] } :: ps₂,
         s.cash_reserve - amt, s.current_pool_value - amt,
         [{ participant_id := pid, amount := amt, status := .completed }]) := by
      rw [processParticipants_append _ _ _ _ hnp₁]
      simp only [processParticipants]
      rw [processRequests_append_neg _ _ _ _ _ hnpp hamt hcash,
        processParticipants_no_pending_id _ _ _ hnp₂]
      simp [hpid]
    refine ⟨rfl, ?_, ?_, ?_, ?_, ?_⟩
    · simp only [PoolState.process_withdrawals, hproc]
    · simp only [PoolState.process_withdrawals, hproc]
    · simp only [PoolState.process_withdrawals, hproc]
    · simp only [PoolState.process_withdrawals, hproc]
    · intro hneg
      refine ⟨?_, ?_, by linarith⟩ <;>
        simp only [PoolState.process_withdrawals, hproc] <;> linarith

/-- The concrete pool of the C10 witness: one participant worth 100, no
requests, cash reserve 50. -/
def c10Pool : PoolState :=
  { initial_pool_value := 100, current_pool_value := 100,
    participants :=
      [{ id := "p1", initial_investment := 100, current_value := 100 }],
    assets := [], cash_reserve := 50 }

/-- Witness for C10: requesting −10 for the sole participant of `c10Pool`
is accepted, and processing completes it, raising the cash reserve from 50
to 60. -/
theorem request_withdrawal_validation_witness :
    (c10Pool.request_withdrawal "p1" (-10)).2 = true ∧
    (c10Pool.request_withdrawal "p1" (-10)).1.process_withdrawals.1.cash_reserve =
      50 - (-10) := by
  have h := request_withdrawal_validation.2 c10Pool "p1" (-10) [] []
    { id := "p1", initial_investment := 100, current_value := 100 }
    rfl (by simp) (by simp) rfl (by simp [c10Pool]) (by norm_num [c10Pool])
    (by norm_num) (by norm_num)
  exact ⟨h.1, h.2.2.1⟩

end PoolMind
